import Mathlib

/-
  Verification of the convex-hull kernel (isl_convex_hull.c).

  Shallow embedding: integer coefficient sequences are `List ℤ` laid out as in
  the C code (`c[0]` the constant term, `c[1+i]` the coefficient of variable
  `x_i`); rational points are functions `ℕ → ℚ`; a basic set / basic map is the
  record of its equality rows, inequality rows and the flags this file's
  algorithms consult.  The exact-LP collaborator (`isl_solve_lp`, `isl_tab_min`)
  lives outside this translation unit; following the specification (section 6)
  it is modelled as an oracle whose answers are constrained by a faithfulness
  predicate (exact rational minimisation over a polyhedron).
-/

set_option autoImplicit false

namespace IslHull

/-- A basic set / basic map (the C code casts freely between the two): the
dimension of the ambient space, the equality rows, the inequality rows and the
two flags consulted by the algorithms in `isl_convex_hull.c`.  Each row
`[c0, c1, ..., cn]` denotes the affine form `c0 + Σ ci·xi` (interpreted `= 0`
for an equality row and `>= 0` for an inequality row). -/
structure BasicSet where
  dim : ℕ
  eq : List (List ℤ)
  ineq : List (List ℤ)
  emptyFlag : Bool := false
  rational : Bool := false
deriving DecidableEq, Repr

/-- A map (or set): a finite union of basic sets over a common space.  The C
`n` field is `p.length`. -/
structure IslMap where
  dim : ℕ
  p : List BasicSet
deriving DecidableEq, Repr

/-- Evaluation of the coefficient tail of a row against a point, starting at
variable index `i`:  `evalFrom [a, b, ...] x i = a·x i + b·x (i+1) + ...`. -/
def evalFrom (v : List ℤ) (x : ℕ → ℚ) (i : ℕ) : ℚ :=
  match v with
  | [] => 0
  | a :: t => (a : ℚ) * x i + evalFrom t x (i + 1)

/-- Value of an affine row `[c0, c1, ..., cn]` at the rational point `x`:
`c0 + Σ ci·x (i-1)`. -/
def affEval (c : List ℤ) (x : ℕ → ℚ) : ℚ :=
  (c.headD 0 : ℚ) + evalFrom c.tail x 0

/-- Membership of a rational point in a basic set: all equality rows vanish and
all inequality rows are non-negative. -/
def satisfies (b : BasicSet) (x : ℕ → ℚ) : Prop :=
  (∀ e ∈ b.eq, affEval e x = 0) ∧ (∀ r ∈ b.ineq, 0 ≤ affEval r x)

/-- A basic set with no rational point. -/
def IsEmptyBS (b : BasicSet) : Prop := ∀ x, ¬ satisfies b x

/-- The affine form `c` takes arbitrarily small values on the basic set `b`. -/
def LinUnbBelow (b : BasicSet) (c : List ℤ) : Prop :=
  ∀ M : ℚ, ∃ x, satisfies b x ∧ affEval c x < M

/-- Result of the exact rational LP collaborator `isl_solve_lp`
(minimisation): optimum `n/d`, empty domain, unbounded below, or error. -/
inductive LPResult where
  | ok (n d : ℤ)
  | empty
  | unbounded
  | err
deriving DecidableEq, Repr

/-- Modelled from the spec: `solve_lp(P, objective, denom) → {ok(n,d) | empty |
unbounded | error}` is the exact rational linear-programming collaborator
(external to `isl_convex_hull.c`).  `LPFaithful b c r` says the answer `r` is
the true one for minimising the affine form `c` over the rational points of
`b`: `ok n d` means the minimum is attained and equals `n/d` with `d > 0`,
`empty` means `b` has no rational point, `unbounded` means `c` is unbounded
below on `b`, and a faithful solver never errors. -/
def LPFaithful (b : BasicSet) (c : List ℤ) (r : LPResult) : Prop :=
  match r with
  | .ok n d => 0 < d ∧ (∀ x, satisfies b x → (n : ℚ) / (d : ℚ) ≤ affEval c x) ∧
      (∃ x, satisfies b x ∧ affEval c x = (n : ℚ) / (d : ℚ))
  | .empty => IsEmptyBS b
  | .unbounded => LinUnbBelow b c
  | .err => False

/-! ### Sequence primitives (isl_seq) -/

/-- `isl_seq_combine(dst, m1, v1, m2, v2, len)`: pointwise `m1·v1 + m2·v2`. -/
def isl_seq_combine (m1 : ℤ) (v1 : List ℤ) (m2 : ℤ) (v2 : List ℤ) : List ℤ :=
  List.zipWith (fun a b => m1 * a + m2 * b) v1 v2

/-- `isl_seq_scale(dst, src, f, len)`: pointwise multiplication by `f`. -/
def isl_seq_scale (v : List ℤ) (f : ℤ) : List ℤ :=
  v.map (fun a => f * a)

/-- `isl_seq_neg(dst, src, len)`: pointwise negation. -/
def isl_seq_neg (v : List ℤ) : List ℤ :=
  v.map (fun a => -a)

/-- `isl_int_sub(c[0], c[0], n)`: subtract `n` from the constant term of a
row (a no-op on the empty row, which never occurs in the C code). -/
def sub_const (v : List ℤ) (n : ℤ) : List ℤ :=
  match v with
  | [] => []
  | a :: t => (a - n) :: t

/-! ### Evaluation lemmas -/

theorem evalFrom_zipWith_combine (m1 m2 : ℤ) (x : ℕ → ℚ) :
    ∀ (v w : List ℤ) (i : ℕ), v.length = w.length →
      evalFrom (List.zipWith (fun a b => m1 * a + m2 * b) v w) x i =
        m1 * evalFrom v x i + m2 * evalFrom w x i := by
  intro v
  induction v with
  | nil => intro w i h; cases w <;> simp_all [evalFrom]
  | cons a t ih =>
    intro w i h
    cases w with
    | nil => simp at h
    | cons b u =>
      simp only [List.length_cons, Nat.succ.injEq] at h
      simp only [List.zipWith_cons_cons, evalFrom, ih u (i + 1) h]
      push_cast
      ring

theorem evalFrom_map_mul (k : ℤ) (x : ℕ → ℚ) :
    ∀ (v : List ℤ) (i : ℕ),
      evalFrom (v.map (fun a => k * a)) x i = k * evalFrom v x i := by
  intro v
  induction v with
  | nil => intro i; simp [evalFrom]
  | cons a t ih =>
    intro i
    simp only [List.map_cons, evalFrom, ih (i + 1)]
    push_cast
    ring

theorem affEval_scale (k : ℤ) (c : List ℤ) (x : ℕ → ℚ) :
    affEval (isl_seq_scale c k) x = k * affEval c x := by
  cases c with
  | nil => simp [affEval, isl_seq_scale, evalFrom]
  | cons a t =>
    simp only [affEval, isl_seq_scale, List.map_cons, List.headD_cons,
      List.tail_cons, evalFrom_map_mul]
    push_cast
    ring

theorem affEval_sub_const (c : List ℤ) (n : ℤ) (x : ℕ → ℚ) (hc : c ≠ []) :
    affEval (sub_const c n) x = affEval c x - n := by
  cases c with
  | nil => exact absurd rfl hc
  | cons a t =>
    simp only [sub_const, affEval, List.headD_cons, List.tail_cons]
    push_cast
    ring

theorem sub_const_tail (c : List ℤ) (n : ℤ) :
    (sub_const c n).tail = c.tail := by
  cases c <;> simp [sub_const]

theorem sub_const_ne_nil (c : List ℤ) (n : ℤ) (hc : c ≠ []) :
    sub_const c n ≠ [] := by
  cases c with
  | nil => exact absurd rfl hc
  | cons a t => simp [sub_const]

theorem scale_tail (c : List ℤ) (k : ℤ) :
    (isl_seq_scale c k).tail = c.tail.map (fun a => k * a) := by
  cases c <;> simp [isl_seq_scale]

theorem scale_ne_nil (c : List ℤ) (k : ℤ) (hc : c ≠ []) :
    isl_seq_scale c k ≠ [] := by
  cases c with
  | nil => exact absurd rfl hc
  | cons a t => simp [isl_seq_scale]

/-! ### C2: wrap_facet (gift-wrapping across one ridge)

`wrap_facet` (isl_convex_hull.c, lines 455–511) transforms a copy of the set so
that the ridge passes through the origin, builds the wrapping LP
(`wrap_constraints`) over the direct sum of the constituents, and hands it to
the external exact solver `isl_solve_lp`.  The transform `T` and the LP are
consumed only by that external call, so the embedding takes the solver's answer
as an argument.  On `ok n d` the code negates `num` and runs
`isl_seq_combine(facet, -n, facet, d, ridge, dim)` on the original facet and
ridge rows; on `unbounded` the facet row is left untouched; any other result
fails the trailing `isl_assert` and yields NULL. -/

def wrap_facet (lp : LPResult) (facet ridge : List ℤ) : Option (List ℤ) :=
  match lp with
  | .ok n d => some (isl_seq_combine (-n) facet d ridge)
  | .unbounded => some facet
  | .empty => none
  | .err => none

/-- C2: in the wrapping step over a facet form `F` and ridge form `R`, an
unbounded wrapping LP leaves `F` unchanged, and a rational optimum `n/d`
replaces `F` by the combination `(−n)·F + d·R` of the original facet and ridge
forms. -/
theorem C2_wrap_facet_combination (n d : ℤ) (F R : List ℤ)
    (hlen : F.length = R.length) :
    wrap_facet .unbounded F R = some F ∧
    ∃ F', wrap_facet (.ok n d) F R = some F' ∧
      ∀ x : ℕ → ℚ, affEval F' x = (-n : ℚ) * affEval F x + (d : ℚ) * affEval R x := by
  refine ⟨rfl, isl_seq_combine (-n) F d R, rfl, ?_⟩
  intro x
  cases F with
  | nil =>
    cases R with
    | nil => simp [affEval, isl_seq_combine, evalFrom]
    | cons b u => simp at hlen
  | cons a t =>
    cases R with
    | nil => simp at hlen
    | cons b u =>
      simp only [List.length_cons, Nat.succ.injEq] at hlen
      simp only [isl_seq_combine, List.zipWith_cons_cons, affEval,
        List.headD_cons, List.tail_cons,
        evalFrom_zipWith_combine (-n) d x t u 0 hlen]
      push_cast
      ring

theorem C2_wrap_facet_combination_witness :
    ([0, 1, 0] : List ℤ).length = ([0, 0, 1] : List ℤ).length ∧
    (wrap_facet .unbounded [0, 1, 0] [0, 0, 1] = some [0, 1, 0] ∧
     ∃ F', wrap_facet (.ok 1 2) [0, 1, 0] [0, 0, 1] = some F' ∧
       ∀ x : ℕ → ℚ, affEval F' x =
         (-(1 : ℤ) : ℚ) * affEval [0, 1, 0] x + ((2 : ℤ) : ℚ) * affEval [0, 0, 1] x) :=
  ⟨by decide, C2_wrap_facet_combination 1 2 [0, 1, 0] [0, 0, 1] (by decide)⟩

/-! ### C3 / C8: redundancy test for a single constraint -/

/-- The sign short-circuit of `isl_basic_map_constraint_is_redundant`
(lines 38–51): scan the variables; if `c` has a non-zero coefficient on some
variable and no inequality of the basic map has a coefficient of the same sign
there, the constraint cannot be redundant and the LP is skipped. -/
def is_redundant_shortcut (B : BasicSet) (c : List ℤ) : Bool :=
  (List.range B.dim).any fun i =>
    (c.getD (1 + i) 0 != 0) &&
      B.ineq.all (fun r => Int.sign (r.getD (1 + i) 0) != Int.sign (c.getD (1 + i) 0))

/-- Modelled from the spec: `isl_basic_map_set_to_empty` is external (the
polyhedron collaborator); per the data model it marks the `empty` flag and
replaces the constraint lists by the unsatisfiable equality `1 = 0`. -/
def set_to_empty (B : BasicSet) : BasicSet :=
  { B with eq := [[1]], ineq := [], emptyFlag := true }

/-- `isl_basic_map_constraint_is_redundant` (lines 28–63): the sign
short-circuit returns 0 without consulting the LP; otherwise the LP on `c`
decides: unbounded → 0, error → −1, empty → mark the basic map empty and
return 0, optimum `n/d` → redundant iff `n ≥ 0`.  Returns the C result
(−1/0/1) together with the (possibly emptied) basic map. -/
def redundant_lp_branch (B : BasicSet) : LPResult → Int × BasicSet
  | .unbounded => (0, B)
  | .err => (-1, B)
  | .empty => (0, set_to_empty B)
  | .ok n _ => (if 0 ≤ n then 1 else 0, B)

def isl_basic_map_constraint_is_redundant (B : BasicSet) (c : List ℤ)
    (lp : LPResult) : Int × BasicSet :=
  if is_redundant_shortcut B c then (0, B)
  else redundant_lp_branch B lp

/-- C8: when the LP reports empty, the basic map is set to empty and the
constraint is reported non-redundant (0); an LP error yields −1 and no
verdict.  (The LP is only consulted when the sign short-circuit does not
fire.) -/
theorem C8_lp_empty_and_error (B : BasicSet) (c : List ℤ)
    (h : is_redundant_shortcut B c = false) :
    isl_basic_map_constraint_is_redundant B c .empty = (0, set_to_empty B) ∧
    (set_to_empty B).emptyFlag = true ∧
    IsEmptyBS (set_to_empty B) ∧
    isl_basic_map_constraint_is_redundant B c .err = (-1, B) := by
  refine ⟨?_, rfl, ?_, ?_⟩
  · simp [isl_basic_map_constraint_is_redundant, redundant_lp_branch, h]
  · intro x hx
    have h1 := hx.1 [1] (by simp [set_to_empty])
    simp [affEval, evalFrom] at h1
  · simp [isl_basic_map_constraint_is_redundant, redundant_lp_branch, h]

theorem C8_lp_empty_and_error_witness :
    is_redundant_shortcut ⟨1, [], [[0, 1], [-1, -1]], false, false⟩ [0, 1] = false ∧
    (isl_basic_map_constraint_is_redundant ⟨1, [], [[0, 1], [-1, -1]], false, false⟩
          [0, 1] .empty =
        (0, set_to_empty ⟨1, [], [[0, 1], [-1, -1]], false, false⟩) ∧
      (set_to_empty ⟨1, [], [[0, 1], [-1, -1]], false, false⟩).emptyFlag = true ∧
      IsEmptyBS (set_to_empty ⟨1, [], [[0, 1], [-1, -1]], false, false⟩) ∧
      isl_basic_map_constraint_is_redundant ⟨1, [], [[0, 1], [-1, -1]], false, false⟩
          [0, 1] .err =
        (-1, ⟨1, [], [[0, 1], [-1, -1]], false, false⟩)) :=
  ⟨by decide,
    C8_lp_empty_and_error ⟨1, [], [[0, 1], [-1, -1]], false, false⟩ [0, 1] (by decide)⟩

/-! ### C9 / C10: the public entry points -/

/-- Modelled from the spec: `isl_basic_map_empty_like_map` is external; it
builds an empty basic map in the space of the given map (empty flag set, the
unsatisfiable equality `1 = 0`, no RATIONAL flag). -/
def empty_like_map (m : IslMap) : BasicSet :=
  ⟨m.dim, [[1]], [], true, false⟩

/-- `ISL_F_CLR(bmap, ISL_BASIC_MAP_RATIONAL)`. -/
def clr_rational (bm : BasicSet) : BasicSet :=
  { bm with rational := false }

/-- `isl_map_convex_hull` (lines 1383–1426).  The n = 0 case returns an empty
basic map.  Otherwise the code aligns divs, peels the model, routes the
underlying set through the affine-hull reduction or `uset_convex_hull`, and
rewraps through `isl_basic_map_overlying_set` — that whole pipeline (lines
1402–1418, largely external collaborators) is abstracted as `core`;
whatever basic map it produces, line 1420 unconditionally clears the RATIONAL
flag before returning. -/
def isl_map_convex_hull (core : IslMap → Option BasicSet) (m : IslMap) :
    Option BasicSet :=
  match m.p with
  | [] => some (empty_like_map m)
  | _ :: _ => (core m).map clr_rational

/-- C9: the result of the public convex-hull operation never carries the
RATIONAL flag, whatever the internal (rational-relaxation) pipeline
produced. -/
theorem C9_rational_flag_cleared (core : IslMap → Option BasicSet)
    (m : IslMap) (bm : BasicSet)
    (h : isl_map_convex_hull core m = some bm) :
    bm.rational = false := by
  unfold isl_map_convex_hull at h
  cases hp : m.p with
  | nil =>
    rw [hp] at h
    simp only [Option.some.injEq] at h
    rw [← h]
    rfl
  | cons b t =>
    rw [hp] at h
    simp only [Option.map_eq_some'] at h
    obtain ⟨a, _, ha⟩ := h
    rw [← ha]
    rfl

theorem C9_rational_flag_cleared_witness :
    isl_map_convex_hull (fun _ => some ⟨1, [], [[0, 1]], false, true⟩)
        ⟨1, [⟨1, [], [[0, 1]], false, true⟩]⟩ =
      some ⟨1, [], [[0, 1]], false, false⟩ ∧
    (⟨1, [], [[0, 1]], false, false⟩ : BasicSet).rational = false :=
  ⟨rfl,
    C9_rational_flag_cleared (fun _ => some ⟨1, [], [[0, 1]], false, true⟩)
      ⟨1, [⟨1, [], [[0, 1]], false, true⟩]⟩ ⟨1, [], [[0, 1]], false, false⟩ rfl⟩

/-- `isl_map_simple_hull` (lines 1764–1794).  n = 0 returns an empty basic
map; n = 1 returns a copy of the single constituent at once; only for n ≥ 2
does the code align divs, build the underlying set and run
`uset_simple_hull` — abstracted as `core`. -/
def isl_map_simple_hull (core : IslMap → Option BasicSet) (m : IslMap) :
    Option BasicSet :=
  match m.p with
  | [] => some (empty_like_map m)
  | [b] => some b
  | _ :: _ :: _ => core m

/-- C10: on a map with exactly one constituent, the simple hull is that
constituent returned unchanged; the quantification over `core` shows the
n ≥ 2 pipeline (affine hull, bound relaxation, final redundancy pruning) is
never consulted. -/
theorem C10_simple_hull_single (core : IslMap → Option BasicSet)
    (m : IslMap) (b : BasicSet) (h : m.p = [b]) :
    isl_map_simple_hull core m = some b := by
  unfold isl_map_simple_hull
  rw [h]

theorem C10_simple_hull_single_witness :
    (⟨2, [⟨2, [[0, 1, 1]], [[3, -1, 0]], false, false⟩]⟩ : IslMap).p =
      [⟨2, [[0, 1, 1]], [[3, -1, 0]], false, false⟩] ∧
    isl_map_simple_hull (fun _ => none)
        ⟨2, [⟨2, [[0, 1, 1]], [[3, -1, 0]], false, false⟩]⟩ =
      some ⟨2, [[0, 1, 1]], [[3, -1, 0]], false, false⟩ :=
  ⟨rfl, C10_simple_hull_single (fun _ => none) _ _ rfl⟩

/-! ### C6: the facet-prefilter constraint table (update_constraint) -/

/-- An entry of the `ProtoHull` constraint table (`struct max_constraint`,
lines 1019–1023): the stored constant term (`c->c->row[0][0]`), the linear
part used as hash key (`c->c->row[0][1..]`), the visit count and the
"still an inequality" status (`ineq`, an int used as a boolean). -/
structure MaxConstraint where
  constant : ℤ
  lin : List ℤ
  count : ℤ
  ineq : Bool
deriving DecidableEq, Repr

/-- `update_constraint` (lines 1033–1061).  The hash table is modelled as a
list of entries searched by exact equality of the linear part
(`max_constraint_equal` compares `con+1` with the stored row past the constant,
with no sign normalisation).  No entry: no change.  An entry whose count lags
behind `n` is removed.  Otherwise the count is incremented and the constants
compared: a strictly smaller incoming constant changes nothing; equal constants
only ever set the status to inequality (`if (ineq) c->ineq = ineq`); a strictly
larger incoming constant overwrites the stored constant and status. -/
def update_constraint (table : List MaxConstraint) (con : List ℤ) (n : ℤ)
    (ineqArg : Bool) : List MaxConstraint :=
  match table with
  | [] => []
  | e :: rest =>
    if e.lin = con.tail then
      if e.count < n then rest
      else
        if con.headD 0 < e.constant then { e with count := e.count + 1 } :: rest
        else if e.constant = con.headD 0 then
          (if ineqArg then { e with count := e.count + 1, ineq := true }
           else { e with count := e.count + 1 }) :: rest
        else ({ e with count := e.count + 1, constant := con.headD 0, ineq := ineqArg }) :: rest
    else e :: update_constraint rest con n ineqArg

/-- C6 counterexample: a matching inequality contributed by a constituent with
an equality (so `common_constraints` passes `ineq = 0`, line 1165) whose
constant term is strictly below the stored one leaves the entry's inequality
status untouched (lines 1051–1052 return before the demotion at line 1060):
the claim that every such match demotes the entry fails. -/
theorem C6_no_demotion_on_smaller_constant :
    update_constraint [⟨5, [1], 0, true⟩] [3, 1] 0 false = [⟨5, [1], 1, true⟩] ∧
    (⟨5, [1], 1, true⟩ : MaxConstraint).ineq = true := by
  constructor <;> decide

/-- C6 (amended): when a matching inequality comes from a constituent with at
least one equality (status argument false), the found entry (count not lagging
behind `n`) has its count incremented, its constant replaced by the weaker
(larger) of the two, and its status demoted to "equality" exactly when the
incoming constant is strictly greater than the stored one; matches with a
smaller or equal constant leave the status unchanged. -/
theorem C6_update_constraint_eq_demotion (pre post : List MaxConstraint)
    (e : MaxConstraint) (con : List ℤ) (n : ℤ)
    (hpre : ∀ e1 ∈ pre, e1.lin ≠ con.tail)
    (he : e.lin = con.tail) (hcount : ¬ e.count < n) :
    update_constraint (pre ++ e :: post) con n false =
      pre ++ { e with
        count := e.count + 1,
        constant := max e.constant (con.headD 0),
        ineq := if e.constant < con.headD 0 then false else e.ineq } :: post := by
  induction pre with
  | nil =>
    simp only [List.nil_append, update_constraint]
    rw [if_pos he, if_neg hcount]
    rcases lt_trichotomy (con.headD 0) e.constant with h | h | h
    · have hni : ¬ e.constant < con.headD 0 := by omega
      rw [if_pos h]
      simp [hni, max_eq_left (le_of_lt h)]
      simp only [← List.headD_eq_head?]
      exact ⟨le_of_lt h, fun _ => le_of_lt h⟩
    · have hni : ¬ e.constant < con.headD 0 := by omega
      rw [if_neg (by omega : ¬ con.headD 0 < e.constant), if_pos h.symm]
      simp [hni, max_eq_left (le_of_eq h)]
      simp only [← List.headD_eq_head?]
      exact ⟨le_of_eq h, fun _ => le_of_eq h⟩
    · rw [if_neg (by omega : ¬ con.headD 0 < e.constant),
        if_neg (by omega : ¬ e.constant = con.headD 0)]
      simp [h, max_eq_right (le_of_lt h)]
      simp only [← List.headD_eq_head?]
      exact ⟨le_of_lt h, fun h2 => absurd h (not_lt.mpr h2)⟩
  | cons p ps ih =>
    have hp : p.lin ≠ con.tail := hpre p (by simp)
    have ih' := ih (fun e1 h1 => hpre e1 (by simp [h1]))
    simp only [List.cons_append, update_constraint]
    rw [if_neg hp]
    exact congrArg (List.cons p) ih'

theorem C6_update_constraint_eq_demotion_witness :
    ((∀ e1 ∈ ([] : List MaxConstraint), e1.lin ≠ ([4, 2, 3] : List ℤ).tail) ∧
      (⟨7, [2, 3], 1, true⟩ : MaxConstraint).lin = ([4, 2, 3] : List ℤ).tail ∧
      ¬ (⟨7, [2, 3], 1, true⟩ : MaxConstraint).count < 1) ∧
    update_constraint ([] ++ ⟨7, [2, 3], 1, true⟩ :: [⟨9, [5], 0, false⟩])
        [4, 2, 3] 1 false =
      [] ++ { (⟨7, [2, 3], 1, true⟩ : MaxConstraint) with
        count := (⟨7, [2, 3], 1, true⟩ : MaxConstraint).count + 1,
        constant := max (⟨7, [2, 3], 1, true⟩ : MaxConstraint).constant
          (([4, 2, 3] : List ℤ).headD 0),
        ineq := if (⟨7, [2, 3], 1, true⟩ : MaxConstraint).constant <
            ([4, 2, 3] : List ℤ).headD 0 then false
          else (⟨7, [2, 3], 1, true⟩ : MaxConstraint).ineq } :: [⟨9, [5], 0, false⟩] :=
  ⟨⟨by simp, by decide, by decide⟩,
    C6_update_constraint_eq_demotion [] [⟨9, [5], 0, false⟩] ⟨7, [2, 3], 1, true⟩
      [4, 2, 3] 1 (by simp) (by decide) (by decide)⟩

/-! ### C5: the one-dimensional convex hull (convex_hull_1d, lines 732–851)

The working state is the pair of current lower/upper bound rows (the C code's
`lower`/`upper` pointers into the scratch matrix `c`; NULL is `none`).  Each
row is a length-2 sequence `[c0, c1]` denoting `c0 + c1·x ≥ 0`.  Rational
bounds `−c0/c1` are compared exactly through the cross products
`lower[0]·row[1]` vs `lower[1]·row[0]`, as in the C code. -/

/-- Seeding from the first basic set when it has no equalities (lines
766–776): the last inequality with positive coefficient becomes `lower`, any
other (the `else` branch, so also a zero coefficient) becomes `upper`. -/
def chull1d_seed_step (lu : Option (List ℤ) × Option (List ℤ)) (r : List ℤ) :
    Option (List ℤ) × Option (List ℤ) :=
  if 0 < r.getD 1 0 then (some r, lu.2) else (lu.1, some r)

/-- Seeding from the first basic set (lines 755–776): a single equality
provides both bounds (sign-adjusted); otherwise the inequalities are scanned;
more than one equality fails the `isl_assert(n_eq == 1)`. -/
def chull1d_init (p0 : BasicSet) : Option (Option (List ℤ) × Option (List ℤ)) :=
  match p0.eq with
  | [] => some (p0.ineq.foldl chull1d_seed_step (none, none))
  | [e] =>
    if 0 < e.getD 1 0 then some (some e, some (isl_seq_neg e))
    else some (some (isl_seq_neg e), some e)
  | _ => none

/-- The equality update of the main loop (lines 785–804): an equality tightens
whichever of the two bounds it beats, with the copy direction fixed by the
sign of its coefficient. -/
def chull1d_eq_step (lu : Option (List ℤ) × Option (List ℤ)) (e : List ℤ) :
    Option (List ℤ) × Option (List ℤ) :=
  (match lu.1 with
   | none => none
   | some lower =>
     if lower.getD 0 0 * e.getD 1 0 < lower.getD 1 0 * e.getD 0 0 ∧ 0 < e.getD 1 0 then
       some e
     else if lower.getD 1 0 * e.getD 0 0 < lower.getD 0 0 * e.getD 1 0 ∧ e.getD 1 0 < 0 then
       some (isl_seq_neg e)
     else some lower,
   match lu.2 with
   | none => none
   | some upper =>
     if upper.getD 0 0 * e.getD 1 0 < upper.getD 1 0 * e.getD 0 0 ∧ 0 < e.getD 1 0 then
       some (isl_seq_neg e)
     else if upper.getD 1 0 * e.getD 0 0 < upper.getD 0 0 * e.getD 1 0 ∧ e.getD 1 0 < 0 then
       some e
     else some upper)

/-- The inequality update of the main loop (lines 805–822): an inequality with
positive coefficient on `x` competes for `lower`, one with negative
coefficient for `upper`; the weaker (smaller `−c0/c1` for lower, larger for
upper) bound wins, so the running bound is valid for every constituent. -/
def chull1d_ineq_step (lu : Option (List ℤ) × Option (List ℤ)) (r : List ℤ) :
    Option (List ℤ) × Option (List ℤ) :=
  (match lu.1 with
   | none => none
   | some lower =>
     if 0 < r.getD 1 0 then
       if lower.getD 0 0 * r.getD 1 0 < lower.getD 1 0 * r.getD 0 0 then some r
       else some lower
     else some lower,
   match lu.2 with
   | none => none
   | some upper =>
     if r.getD 1 0 < 0 then
       if upper.getD 1 0 * r.getD 0 0 < upper.getD 0 0 * r.getD 1 0 then some r
       else some upper
     else some upper)

/-- One constituent of the main loop (lines 780–827): fold the equality and
inequality updates, then drop a bound the constituent does not itself have
(`has_lower` / `has_upper`: any equality counts as both). -/
def chull1d_member (lu : Option (List ℤ) × Option (List ℤ)) (bset : BasicSet) :
    Option (List ℤ) × Option (List ℤ) :=
  let lu2 := bset.ineq.foldl chull1d_ineq_step (bset.eq.foldl chull1d_eq_step lu)
  ((if !bset.eq.isEmpty || bset.ineq.any (fun r => decide (0 < r.getD 1 0))
    then lu2.1 else none),
   (if !bset.eq.isEmpty || bset.ineq.any (fun r => decide (r.getD 1 0 < 0))
    then lu2.2 else none))

/-- `convex_hull_1d` (lines 732–851).  Modelled from the spec: the preamble
calls the external `isl_basic_set_simplify` on each constituent and
`isl_set_remove_empty_parts`; per the data-model invariants simplification is
the identity on already-reduced constituents, so it is modelled as the
identity, and the empty-part removal as filtering on the `empty` flag.  The
seeding and the main loop are translated directly; the result is the basic set
with the surviving `lower` and `upper` rows as inequalities and the RATIONAL
flag set (lines 831–843). -/
def convex_hull_1d (set : List BasicSet) : Option BasicSet :=
  match set.filter (fun b => !b.emptyFlag) with
  | [] => none
  | p0 :: rest =>
    match chull1d_init p0 with
    | none => none
    | some lu0 =>
      let lu := (p0 :: rest).foldl chull1d_member lu0
      some ⟨1, [],
        (match lu.1 with | some l => [l] | none => []) ++
          (match lu.2 with | some u => [u] | none => []),
        false, true⟩

/-- C5: on the union `{x ≥ 0 ∧ x ≤ 2} ∪ {x ≥ 3 ∧ x ≤ 5}` the 1-D hull is the
single tightest pair of bounds `{0 ≤ x ≤ 5}`: concretely the rows
`[0, 1]` (`x ≥ 0`) and `[5, −1]` (`5 − x ≥ 0`), whose rational points are
exactly the interval `[0, 5]`. -/
theorem C5_hull_1d_interval :
    convex_hull_1d
        [⟨1, [], [[0, 1], [2, -1]], false, false⟩,
         ⟨1, [], [[-3, 1], [5, -1]], false, false⟩] =
      some ⟨1, [], [[0, 1], [5, -1]], false, true⟩ ∧
    ∀ x : ℕ → ℚ,
      satisfies ⟨1, [], [[0, 1], [5, -1]], false, true⟩ x ↔ 0 ≤ x 0 ∧ x 0 ≤ 5 := by
  refine ⟨by decide, ?_⟩
  intro x
  simp only [satisfies, List.mem_nil_iff, false_implies, implies_true, true_and,
    List.mem_cons, List.mem_singleton, forall_eq_or_imp, forall_eq,
    affEval, evalFrom, List.headD_cons, List.tail_cons]
  push_cast
  constructor
  · rintro ⟨h1, h2, -⟩
    exact ⟨by linarith, by linarith⟩
  · rintro ⟨h1, h2⟩
    exact ⟨by linarith, by linarith, trivial⟩

/-! ### C3: the redundancy verdict against the true minimum -/

theorem evalFrom_add_pt (v : List ℤ) (x y : ℕ → ℚ) :
    ∀ i, evalFrom v (fun j => x j + y j) i = evalFrom v x i + evalFrom v y i := by
  induction v with
  | nil => intro i; simp [evalFrom]
  | cons a t ih =>
    intro i
    simp only [evalFrom, ih (i + 1)]
    ring

theorem evalFrom_single (v : List ℤ) (i0 : ℕ) (a : ℚ) :
    ∀ st, evalFrom v (fun j => if j = i0 then a else 0) st =
      if st ≤ i0 ∧ i0 < st + v.length then (v.getD (i0 - st) 0 : ℚ) * a else 0 := by
  induction v with
  | nil =>
    intro st
    rw [if_neg (by simp only [List.length_nil]; omega)]
    simp [evalFrom]
  | cons b w ih =>
    intro st
    simp only [evalFrom, ih (st + 1)]
    by_cases h : st = i0
    · subst h
      rw [if_pos rfl, if_neg (by omega),
        if_pos (by simp only [List.length_cons]; omega)]
      simp only [Nat.sub_self, List.getD_cons_zero]
      ring
    · rw [if_neg h]
      by_cases h2 : st + 1 ≤ i0 ∧ i0 < st + 1 + w.length
      · rw [if_pos h2, if_pos (by simp only [List.length_cons]; omega)]
        have hidx : i0 - st = (i0 - (st + 1)) + 1 := by omega
        rw [hidx, List.getD_cons_succ]
        ring
      · rw [if_neg h2, if_neg (by simp only [List.length_cons]; omega)]
        ring

theorem tail_getD (c : List ℤ) (i : ℕ) : c.tail.getD i 0 = c.getD (1 + i) 0 := by
  cases c with
  | nil => simp
  | cons a t => rw [Nat.add_comm]; simp

theorem lt_length_of_getD_ne (l : List ℤ) (n : ℕ) (h : l.getD n 0 ≠ 0) :
    n < l.length := by
  by_contra hn
  exact h (List.getD_eq_default l 0 (le_of_not_lt hn))

/-- Value of a row at a point perturbed along the single coordinate `i`. -/
theorem affEval_shift_single (v : List ℤ) (x : ℕ → ℚ) (i : ℕ) (A : ℚ) :
    affEval v (fun j => x j + (if j = i then A else 0)) =
      affEval v x + (if i < v.tail.length then (v.tail.getD i 0 : ℚ) * A else 0) := by
  simp only [affEval]
  rw [evalFrom_add_pt, evalFrom_single]
  simp only [Nat.zero_le, true_and, Nat.zero_add, Nat.sub_zero]
  ring

theorem mul_sign_pos {a : ℤ} (ha : a ≠ 0) : 0 < a * Int.sign a := by
  rcases lt_trichotomy a 0 with h | h | h
  · rw [Int.sign_eq_neg_one_of_neg h]; omega
  · exact absurd h ha
  · rw [Int.sign_eq_one_of_pos h]; omega

theorem mul_sign_nonpos {a b : ℤ} (ha : a ≠ 0) (h : Int.sign b ≠ Int.sign a) :
    b * Int.sign a ≤ 0 := by
  rcases lt_trichotomy a 0 with h1 | h1 | h1
  · rw [Int.sign_eq_neg_one_of_neg h1] at *
    rcases lt_trichotomy b 0 with h2 | h2 | h2
    · exact absurd (Int.sign_eq_neg_one_of_neg h2) h
    · omega
    · omega
  · exact absurd h1 ha
  · rw [Int.sign_eq_one_of_pos h1] at *
    rcases lt_trichotomy b 0 with h2 | h2 | h2
    · omega
    · omega
    · exact absurd (Int.sign_eq_one_of_pos h2) h

/-- Moving from a point of an equality-free basic set along `−sign·e_i`, where
no inequality has a coefficient of `c`'s sign on variable `i`, stays in the
set and decreases `c` at a fixed positive rate. -/
theorem ray_step (B : BasicSet) (c : List ℤ) (heq : B.eq = [])
    (i : ℕ) (hne : c.getD (1 + i) 0 ≠ 0)
    (hall : ∀ r ∈ B.ineq, Int.sign (r.getD (1 + i) 0) ≠ Int.sign (c.getD (1 + i) 0))
    (x : ℕ → ℚ) (hx : satisfies B x) (t : ℚ) (ht : 0 ≤ t) :
    satisfies B
      (fun j => x j + (if j = i then t * (-(Int.sign (c.getD (1 + i) 0) : ℚ)) else 0)) ∧
    affEval c
        (fun j => x j + (if j = i then t * (-(Int.sign (c.getD (1 + i) 0) : ℚ)) else 0)) =
      affEval c x -
        t * ((c.getD (1 + i) 0 : ℚ) * (Int.sign (c.getD (1 + i) 0) : ℚ)) := by
  constructor
  · constructor
    · intro e he
      rw [heq] at he
      simp at he
    · intro r hr
      rw [affEval_shift_single]
      by_cases hlen : i < r.tail.length
      · rw [if_pos hlen]
        have hb : (r.getD (1 + i) 0) * Int.sign (c.getD (1 + i) 0) ≤ 0 :=
          mul_sign_nonpos hne (hall r hr)
        have hbq : ((r.getD (1 + i) 0 : ℚ)) * (Int.sign (c.getD (1 + i) 0) : ℚ) ≤ 0 := by
          exact_mod_cast hb
        have hterm :
            0 ≤ (r.tail.getD i 0 : ℚ) * (t * (-(Int.sign (c.getD (1 + i) 0) : ℚ))) := by
          rw [tail_getD]
          nlinarith
        have := hx.2 r hr
        linarith
      · rw [if_neg hlen]
        have := hx.2 r hr
        linarith
  · rw [affEval_shift_single]
    have hlen : i < c.tail.length := by
      apply lt_length_of_getD_ne
      rw [tail_getD]
      exact hne
    rw [if_pos hlen, tail_getD]
    ring

/-- On an equality-free basic set, when the sign short-circuit condition holds
the constraint takes a negative value somewhere in the set (if the set is
non-empty at all). -/
theorem shortcut_negative_somewhere (B : BasicSet) (c : List ℤ)
    (heq : B.eq = []) (hsc : is_redundant_shortcut B c = true)
    (x : ℕ → ℚ) (hx : satisfies B x) :
    ∃ y, satisfies B y ∧ affEval c y < 0 := by
  have hsc' : ∃ i, c.getD (1 + i) 0 ≠ 0 ∧
      ∀ r ∈ B.ineq, Int.sign (r.getD (1 + i) 0) ≠ Int.sign (c.getD (1 + i) 0) := by
    simp only [is_redundant_shortcut, List.any_eq_true, List.mem_range,
      Bool.and_eq_true, bne_iff_ne, List.all_eq_true] at hsc
    obtain ⟨i, -, h1, h2⟩ := hsc
    exact ⟨i, h1, fun r hr => h2 r hr⟩
  obtain ⟨i, hne, hall⟩ := hsc'
  have hq : 0 < (c.getD (1 + i) 0) * Int.sign (c.getD (1 + i) 0) := mul_sign_pos hne
  have hqQ : 0 < ((c.getD (1 + i) 0 : ℚ)) * (Int.sign (c.getD (1 + i) 0) : ℚ) := by
    exact_mod_cast hq
  set q : ℚ := ((c.getD (1 + i) 0 : ℚ)) * (Int.sign (c.getD (1 + i) 0) : ℚ) with hqdef
  set t : ℚ := (max 0 (affEval c x) + 1) / q with htdef
  have hmax : 0 ≤ max 0 (affEval c x) := le_max_left _ _
  have ht : 0 ≤ t := div_nonneg (by linarith) (le_of_lt hqQ)
  obtain ⟨hsat, hval⟩ := ray_step B c heq i hne hall x hx t ht
  refine ⟨_, hsat, ?_⟩
  rw [hval, htdef]
  rw [div_mul_cancel₀ _ (ne_of_gt hqQ)]
  have := le_max_right 0 (affEval c x)
  linarith

/-- C3 (amended): for a polyhedron `B` without equalities and a faithful LP
answer, the redundancy test declares `c` redundant exactly when the minimum of
`c` over `B` exists and is ≥ 0 (equivalently: `B` is non-empty and `c ≥ 0` on
all of `B`); and whenever the sign short-circuit condition holds, the verdict
is non-redundant independently of any LP answer (no LP is solved).  (With
equalities present the short-circuit can misfire; see the counterexample.) -/
theorem C3_redundancy_iff (B : BasicSet) (c : List ℤ) (lp : LPResult)
    (heq : B.eq = []) (hlp : LPFaithful B c lp) :
    ((isl_basic_map_constraint_is_redundant B c lp).1 = 1 ↔
      (∃ x, satisfies B x) ∧ ∀ x, satisfies B x → 0 ≤ affEval c x) ∧
    (is_redundant_shortcut B c = true →
      ∀ lp', (isl_basic_map_constraint_is_redundant B c lp').1 = 0) := by
  constructor
  · by_cases hsc : is_redundant_shortcut B c = true
    · simp only [isl_basic_map_constraint_is_redundant, hsc, if_true]
      constructor
      · intro h
        simp at h
      · rintro ⟨⟨x, hx⟩, hall⟩
        obtain ⟨y, hy, hylt⟩ := shortcut_negative_somewhere B c heq hsc x hx
        exact absurd (hall y hy) (not_le.mpr hylt)
    · rw [Bool.not_eq_true] at hsc
      simp only [isl_basic_map_constraint_is_redundant, hsc, Bool.false_eq_true, if_false]
      cases lp with
      | ok n d =>
        obtain ⟨hd, hmin, x0, hx0, hval⟩ := hlp
        have hdq : (0 : ℚ) < (d : ℚ) := by exact_mod_cast hd
        simp only [redundant_lp_branch]
        constructor
        · intro h
          have hn : 0 ≤ n := by
            by_contra hn
            rw [if_neg hn] at h
            simp at h
          have hnd : (0 : ℚ) ≤ (n : ℚ) / (d : ℚ) := by
            apply div_nonneg _ (le_of_lt hdq)
            exact_mod_cast hn
          exact ⟨⟨x0, hx0⟩, fun x hx => le_trans hnd (hmin x hx)⟩
        · rintro ⟨-, hall⟩
          have h0 : (0 : ℚ) ≤ (n : ℚ) / (d : ℚ) := hval ▸ hall x0 hx0
          have hn : (0 : ℚ) ≤ (n : ℚ) := by
            rcases div_nonneg_iff.mp h0 with ⟨h1, -⟩ | ⟨-, h2⟩
            · exact h1
            · linarith
          rw [if_pos (by exact_mod_cast hn)]
      | empty =>
        simp only [redundant_lp_branch]
        constructor
        · intro h; simp at h
        · rintro ⟨⟨x, hx⟩, -⟩
          exact absurd hx (hlp x)
      | unbounded =>
        obtain ⟨x, hx, hlt⟩ := hlp 0
        simp only [redundant_lp_branch]
        constructor
        · intro h; simp at h
        · rintro ⟨-, hall⟩
          linarith [hall x hx]
      | err => exact absurd hlp (by simp [LPFaithful])
  · intro hsc lp'
    simp [isl_basic_map_constraint_is_redundant, hsc]

/-- C3 counterexample: on `B = {x₀ = 0}` (one equality, no inequalities) and
`c = x₀`, the minimum of `c` over `B` is 0 ≥ 0 — the claim demands the verdict
"redundant" — yet the sign short-circuit fires (no inequality bounds `x₀`) and
the code returns non-redundant without consulting the (faithful) LP. -/
theorem C3_counterexample :
    (isl_basic_map_constraint_is_redundant ⟨1, [[0, 1]], [], false, false⟩
        [0, 1] (.ok 0 1)).1 = 0 ∧
    LPFaithful ⟨1, [[0, 1]], [], false, false⟩ [0, 1] (.ok 0 1) ∧
    (∃ x, satisfies ⟨1, [[0, 1]], [], false, false⟩ x) ∧
    (∀ x, satisfies ⟨1, [[0, 1]], [], false, false⟩ x → 0 ≤ affEval [0, 1] x) := by
  have hsat : ∀ x : ℕ → ℚ,
      satisfies ⟨1, [[0, 1]], [], false, false⟩ x ↔ x 0 = 0 := by
    intro x
    simp [satisfies, affEval, evalFrom]
  refine ⟨by decide, ⟨one_pos, ?_, ?_⟩, ?_, ?_⟩
  · intro x hx
    rw [hsat] at hx
    simp [affEval, evalFrom, hx]
  · refine ⟨fun _ => 0, ?_, ?_⟩
    · rw [hsat]
    · simp [affEval, evalFrom]
  · exact ⟨fun _ => 0, by rw [hsat]⟩
  · intro x hx
    rw [hsat] at hx
    simp [affEval, evalFrom, hx]

theorem C3_redundancy_iff_witness :
    ((⟨1, [], [[0, 1]], false, false⟩ : BasicSet).eq = [] ∧
      LPFaithful ⟨1, [], [[0, 1]], false, false⟩ [0, 1] (.ok 0 1)) ∧
    (((isl_basic_map_constraint_is_redundant ⟨1, [], [[0, 1]], false, false⟩
          [0, 1] (.ok 0 1)).1 = 1 ↔
        (∃ x, satisfies ⟨1, [], [[0, 1]], false, false⟩ x) ∧
          ∀ x, satisfies ⟨1, [], [[0, 1]], false, false⟩ x → 0 ≤ affEval [0, 1] x) ∧
      (is_redundant_shortcut ⟨1, [], [[0, 1]], false, false⟩ [0, 1] = true →
        ∀ lp', (isl_basic_map_constraint_is_redundant ⟨1, [], [[0, 1]], false, false⟩
          [0, 1] lp').1 = 0)) := by
  have hf : LPFaithful ⟨1, [], [[0, 1]], false, false⟩ [0, 1] (.ok 0 1) := by
    refine ⟨one_pos, ?_, fun _ => 0, ?_, ?_⟩
    · intro x hx
      have := hx.2 [0, 1] (by simp)
      simpa [affEval, evalFrom] using this
    · exact ⟨by simp, by simp [affEval, evalFrom]⟩
    · simp [affEval, evalFrom]
  exact ⟨⟨rfl, hf⟩, C3_redundancy_iff ⟨1, [], [[0, 1]], false, false⟩ [0, 1] (.ok 0 1) rfl hf⟩

/-! ### C7: the simple-hull bound check over earlier constituents -/

/-- Result of `isl_tab_min` on a basic set's tableau (external collaborator;
denominator fixed to one by the caller in `is_bound`). -/
inductive TabMinResult where
  | ok (opt : ℤ)
  | empty
  | unbounded
  | err
deriving DecidableEq, Repr

/-- Modelled from the spec: `isl_tab_min` is the external tableau minimiser
(section 6, `Tab.min(objective)`); per section 4.11 `BoundCheck` minimises the
candidate over the constituent.  `TabFaithful b c r` constrains the answer:
`ok opt` means the minimum of `c` over `b` is attained and equals `opt`,
`empty` means `b` has no rational point, `unbounded` means `c` is unbounded
below on `b`, and a faithful tableau never errors. -/
def TabFaithful (b : BasicSet) (c : List ℤ) (r : TabMinResult) : Prop :=
  match r with
  | .ok opt => (∀ x, satisfies b x → (opt : ℚ) ≤ affEval c x) ∧
      (∃ x, satisfies b x ∧ affEval c x = (opt : ℚ))
  | .empty => IsEmptyBS b
  | .unbounded => LinUnbBelow b c
  | .err => False

/-- `is_bound` (lines 1560–1583): minimise `ineq` over basic set `j`; on a
negative optimum raise the constant term by its absolute value
(`isl_int_sub(ineq[0], ineq[0], opt)`); return 1 on `ok`, 0 on `unbounded`,
−1 otherwise, together with the (possibly relaxed) inequality. -/
def is_bound (r : TabMinResult) (ineq : List ℤ) : Int × List ℤ :=
  match r with
  | .ok opt => (1, if opt < 0 then sub_const ineq opt else ineq)
  | .unbounded => (0, ineq)
  | _ => (-1, ineq)

/-- The `j < i` loop of `add_bound` (lines 1636–1647): run `is_bound` against
every earlier constituent in turn, threading the relaxed candidate; a 0 result
discards the candidate (the freshly added hull inequality is freed, lines
1644–1647), a negative result aborts with an error.  `some (some c)` is the
surviving candidate, `some none` the discarded one, `none` the error exit. -/
def add_bound_earlier (O : BasicSet → List ℤ → TabMinResult) :
    List BasicSet → List ℤ → Option (Option (List ℤ))
  | [], c => some (some c)
  | m :: ms, c =>
    let r := is_bound (O m c) c
    if r.1 = 1 then add_bound_earlier O ms r.2
    else if r.1 = 0 then some none
    else none

theorem affEval_head_shift (c c' : List ℤ) (x : ℕ → ℚ)
    (ht : c'.tail = c.tail) :
    affEval c' x = affEval c x + ((c'.headD 0 : ℚ) - (c.headD 0 : ℚ)) := by
  simp only [affEval, ht]
  ring

theorem linUnb_iff_of_tail_eq (m : BasicSet) (c c' : List ℤ)
    (ht : c'.tail = c.tail) : LinUnbBelow m c' ↔ LinUnbBelow m c := by
  constructor
  · intro h M
    obtain ⟨x, hx, hlt⟩ := h (M + ((c'.headD 0 : ℚ) - (c.headD 0 : ℚ)))
    refine ⟨x, hx, ?_⟩
    rw [affEval_head_shift c c' x ht] at hlt
    linarith
  · intro h M
    obtain ⟨x, hx, hlt⟩ := h (M - ((c'.headD 0 : ℚ) - (c.headD 0 : ℚ)))
    refine ⟨x, hx, ?_⟩
    rw [affEval_head_shift c c' x ht]
    linarith

theorem sub_const_headD (c : List ℤ) (n : ℤ) (hc : c ≠ []) :
    (sub_const c n).headD 0 = c.headD 0 - n := by
  cases c with
  | nil => exact absurd rfl hc
  | cons a t => simp [sub_const]

/-- The main induction for C7: the earlier-constituent loop discards the
candidate exactly when some earlier constituent leaves its linear part
unbounded below, and otherwise returns a relaxation (same linear part, larger
or equal constant) that is non-negative on every earlier constituent. -/
theorem add_bound_earlier_spec (O : BasicSet → List ℤ → TabMinResult)
    (c0 : List ℤ) :
    ∀ (ms : List BasicSet) (c : List ℤ), c.tail = c0.tail → c ≠ [] →
    (∀ m ∈ ms, ∀ c', c'.tail = c0.tail → TabFaithful m c' (O m c')) →
    (∀ m ∈ ms, ∃ x, satisfies m x) →
    ((add_bound_earlier O ms c = some none ↔ ∃ m ∈ ms, LinUnbBelow m c0) ∧
     (∀ c', add_bound_earlier O ms c = some (some c') →
        c'.tail = c0.tail ∧ c.headD 0 ≤ c'.headD 0 ∧
        ∀ m ∈ ms, ∀ x, satisfies m x → 0 ≤ affEval c' x)) := by
  intro ms
  induction ms with
  | nil =>
    intro c htl hne _ _
    refine ⟨by simp [add_bound_earlier], ?_⟩
    intro c' hc'
    simp only [add_bound_earlier, Option.some.injEq] at hc'
    rw [← hc']
    exact ⟨htl, le_refl _, by simp⟩
  | cons m ms ih =>
    intro c htl hne HO hnonempty
    have hm := HO m (by simp) c htl
    have hmx := hnonempty m (by simp)
    cases hr : O m c with
    | err => rw [hr] at hm; exact absurd hm (by simp [TabFaithful])
    | empty =>
      rw [hr] at hm
      obtain ⟨x, hx⟩ := hmx
      exact absurd hx (hm x)
    | unbounded =>
      rw [hr] at hm
      have hres : add_bound_earlier O (m :: ms) c = some none := by
        simp [add_bound_earlier, hr, is_bound]
      refine ⟨⟨fun _ => ⟨m, by simp, (linUnb_iff_of_tail_eq m c0 c htl).mp hm⟩,
        fun _ => hres⟩, ?_⟩
      intro c' hc'
      rw [hres] at hc'
      simp at hc'
    | ok opt =>
      rw [hr] at hm
      obtain ⟨hmin, xm, hxm, hval⟩ := hm
      -- the candidate after this step
      have hres : add_bound_earlier O (m :: ms) c =
          add_bound_earlier O ms (if opt < 0 then sub_const c opt else c) := by
        simp [add_bound_earlier, hr, is_bound]
      have htl2 : (if opt < 0 then sub_const c opt else c).tail = c0.tail := by
        split <;> simp [sub_const_tail, htl]
      have hne2 : (if opt < 0 then sub_const c opt else c) ≠ [] := by
        split
        · exact sub_const_ne_nil c opt hne
        · exact hne
      have ihs := ih (if opt < 0 then sub_const c opt else c) htl2 hne2
        (fun m' hm' => HO m' (by simp [hm'])) (fun m' hm' => hnonempty m' (by simp [hm']))
      -- m itself is not unbounded below (its minimum is attained)
      have hnb : ¬ LinUnbBelow m c0 := by
        intro hu
        have hu' := (linUnb_iff_of_tail_eq m c0 c htl).mpr hu
        obtain ⟨x, hx, hlt⟩ := hu' (opt : ℚ)
        exact absurd (hmin x hx) (not_le.mpr hlt)
      constructor
      · rw [hres, ihs.1]
        constructor
        · rintro ⟨m', hm', hu⟩
          exact ⟨m', by simp [hm'], hu⟩
        · rintro ⟨m', hm', hu⟩
          rcases List.mem_cons.mp hm' with h | h
          · exact absurd (h ▸ hu) hnb
          · exact ⟨m', h, hu⟩
      · intro c' hc'
        rw [hres] at hc'
        obtain ⟨h1, h2, h3⟩ := ihs.2 c' hc'
        have hstep : c.headD 0 ≤ (if opt < 0 then sub_const c opt else c).headD 0 := by
          by_cases hneg : opt < 0
          · rw [if_pos hneg, sub_const_headD c opt hne]; omega
          · rw [if_neg hneg]
        refine ⟨h1, le_trans hstep h2, ?_⟩
        intro m' hm' x hx
        rcases List.mem_cons.mp hm' with h | h
        · subst h
          -- the new candidate is ≥ 0 on m; c' only raises the constant further
          have hc2 : 0 ≤ affEval (if opt < 0 then sub_const c opt else c) x := by
            by_cases hneg : opt < 0
            · rw [if_pos hneg, affEval_sub_const c opt x hne]
              have := hmin x hx
              linarith
            · rw [if_neg hneg]
              have := hmin x hx
              push_neg at hneg
              have h0 : (0 : ℚ) ≤ (opt : ℚ) := by exact_mod_cast hneg
              linarith
          have := affEval_head_shift (if opt < 0 then sub_const c opt else c) c' x
            (by rw [h1, htl2])
          have hmono : ((if opt < 0 then sub_const c opt else c).headD 0 : ℚ) ≤
              (c'.headD 0 : ℚ) := by exact_mod_cast h2
          linarith
        · exact h3 m' h x hx

/-- C7 (amended): in the simple-hull candidate loop over earlier constituents
`j < i`, the candidate is minimised over each `Pⱼ` with the running (already
relaxed) constant; it is discarded exactly when some earlier constituent makes
its linear part unbounded below; a surviving candidate keeps the linear part,
never decreases the constant, and is non-negative on every earlier
constituent; and each single `BoundCheck` with attained minimum `opt` raises
the constant by `|opt|` when `opt < 0` — making the minimum over that
constituent exactly 0 — and leaves the candidate unchanged when `opt ≥ 0`. -/
theorem C7_add_bound_earlier (O : BasicSet → List ℤ → TabMinResult)
    (ms : List BasicSet) (c : List ℤ) (hne : c ≠ [])
    (HO : ∀ m ∈ ms, ∀ c', c'.tail = c.tail → TabFaithful m c' (O m c'))
    (hnonempty : ∀ m ∈ ms, ∃ x, satisfies m x) :
    ((add_bound_earlier O ms c = some none ↔ ∃ m ∈ ms, LinUnbBelow m c) ∧
     (∀ c', add_bound_earlier O ms c = some (some c') →
        c'.tail = c.tail ∧ c.headD 0 ≤ c'.headD 0 ∧
        ∀ m ∈ ms, ∀ x, satisfies m x → 0 ≤ affEval c' x)) ∧
    (∀ m ∈ ms, ∀ c₁ opt, c₁.tail = c.tail → c₁ ≠ [] → O m c₁ = .ok opt →
      is_bound (O m c₁) c₁ = (1, if opt < 0 then sub_const c₁ opt else c₁) ∧
      (opt < 0 →
        (∀ x, satisfies m x → 0 ≤ affEval (sub_const c₁ opt) x) ∧
        (∃ x, satisfies m x ∧ affEval (sub_const c₁ opt) x = 0)) ∧
      (0 ≤ opt → ∀ x, satisfies m x → 0 ≤ affEval c₁ x)) := by
  refine ⟨add_bound_earlier_spec O c ms c rfl hne HO hnonempty, ?_⟩
  intro m hm c₁ opt htl hne1 hO
  have hf := HO m hm c₁ htl
  rw [hO] at hf
  obtain ⟨hmin, xm, hxm, hval⟩ := hf
  refine ⟨by simp [is_bound, hO], ?_, ?_⟩
  · intro hneg
    constructor
    · intro x hx
      rw [affEval_sub_const c₁ opt x hne1]
      have := hmin x hx
      linarith
    · refine ⟨xm, hxm, ?_⟩
      rw [affEval_sub_const c₁ opt xm hne1, hval]
      ring
  · intro hpos x hx
    have := hmin x hx
    have h0 : (0 : ℚ) ≤ (opt : ℚ) := by exact_mod_cast hpos
    linarith

/-- C7 counterexample: a constituent with attained minimum `+1` (the point
set `{x₀ = 1}` and candidate `x₀ ≥ 0`): the claim demands the constant be
raised by `|min| = 1`, but the code leaves the candidate unchanged because the
minimum is non-negative (line 1576 only subtracts a negative optimum). -/
theorem C7_counterexample :
    TabFaithful ⟨1, [[-1, 1]], [], false, false⟩ [0, 1] (.ok 1) ∧
    add_bound_earlier (fun _ c' => .ok (c'.headD 0 + c'.tail.headD 0))
        [⟨1, [[-1, 1]], [], false, false⟩] [0, 1] = some (some [0, 1]) ∧
    ([0, 1] : List ℤ) ≠ [1, 1] := by
  have hsat : ∀ x : ℕ → ℚ,
      satisfies ⟨1, [[-1, 1]], [], false, false⟩ x ↔ x 0 = 1 := by
    intro x
    simp only [satisfies, List.mem_nil_iff, false_implies, implies_true, and_true,
      List.mem_singleton, forall_eq, affEval, evalFrom, List.headD_cons,
      List.tail_cons]
    push_cast
    constructor
    · intro h; linarith
    · intro h; rw [h]; ring
  refine ⟨⟨?_, fun _ => 1, ?_, ?_⟩, by decide, by decide⟩
  · intro x hx
    rw [hsat] at hx
    simp [affEval, evalFrom, hx]
  · rw [hsat]
  · simp [affEval, evalFrom]

theorem C7_add_bound_earlier_witness :
    (([-2, 1] : List ℤ) ≠ [] ∧
      (∀ m ∈ [(⟨1, [[-1, 1]], [], false, false⟩ : BasicSet)], ∀ c' : List ℤ,
        c'.tail = ([-2, 1] : List ℤ).tail →
        TabFaithful m c' ((fun _ c' => TabMinResult.ok (c'.headD 0 + c'.tail.headD 0))
          m c')) ∧
      (∀ m ∈ [(⟨1, [[-1, 1]], [], false, false⟩ : BasicSet)], ∃ x, satisfies m x)) ∧
    ((add_bound_earlier (fun _ c' => .ok (c'.headD 0 + c'.tail.headD 0))
        [⟨1, [[-1, 1]], [], false, false⟩] [-2, 1] = some none ↔
      ∃ m ∈ [(⟨1, [[-1, 1]], [], false, false⟩ : BasicSet)], LinUnbBelow m [-2, 1]) ∧
     (∀ c', add_bound_earlier (fun _ c' => .ok (c'.headD 0 + c'.tail.headD 0))
          [⟨1, [[-1, 1]], [], false, false⟩] [-2, 1] = some (some c') →
        c'.tail = ([-2, 1] : List ℤ).tail ∧
        ([-2, 1] : List ℤ).headD 0 ≤ c'.headD 0 ∧
        ∀ m ∈ [(⟨1, [[-1, 1]], [], false, false⟩ : BasicSet)], ∀ x,
          satisfies m x → 0 ≤ affEval c' x)) ∧
    (∀ m ∈ [(⟨1, [[-1, 1]], [], false, false⟩ : BasicSet)], ∀ c₁ opt,
      c₁.tail = ([-2, 1] : List ℤ).tail → c₁ ≠ [] →
      (fun _ c' => TabMinResult.ok (c'.headD 0 + c'.tail.headD 0)) m c₁ = .ok opt →
      is_bound ((fun _ c' => TabMinResult.ok (c'.headD 0 + c'.tail.headD 0)) m c₁) c₁ =
        (1, if opt < 0 then sub_const c₁ opt else c₁) ∧
      (opt < 0 →
        (∀ x, satisfies m x → 0 ≤ affEval (sub_const c₁ opt) x) ∧
        (∃ x, satisfies m x ∧ affEval (sub_const c₁ opt) x = 0)) ∧
      (0 ≤ opt → ∀ x, satisfies m x → 0 ≤ affEval c₁ x)) := by
  have hsat : ∀ x : ℕ → ℚ,
      satisfies ⟨1, [[-1, 1]], [], false, false⟩ x ↔ x 0 = 1 := by
    intro x
    simp only [satisfies, List.mem_nil_iff, false_implies, implies_true, and_true,
      List.mem_singleton, forall_eq, affEval, evalFrom, List.headD_cons,
      List.tail_cons]
    push_cast
    constructor
    · intro h; linarith
    · intro h; rw [h]; ring
  have HO : ∀ m ∈ [(⟨1, [[-1, 1]], [], false, false⟩ : BasicSet)], ∀ c' : List ℤ,
      c'.tail = ([-2, 1] : List ℤ).tail →
      TabFaithful m c' ((fun _ c' => TabMinResult.ok (c'.headD 0 + c'.tail.headD 0))
        m c') := by
    intro m hm c' htl
    simp only [List.mem_singleton] at hm
    subst hm
    -- c' has tail [1], so c' = [c'₀, 1] and its value on {x₀ = 1} is c'₀ + 1
    have hc' : c' = [c'.headD 0, 1] := by
      cases c' with
      | nil => simp at htl
      | cons a t => simp at htl; simp [htl]
    refine ⟨?_, fun _ => 1, ?_, ?_⟩
    · intro x hx
      rw [hsat] at hx
      rw [hc']
      simp [affEval, evalFrom, hx, htl]
    · rw [hsat]
    · rw [hc']
      simp [affEval, evalFrom, htl]
  have hnonempty : ∀ m ∈ [(⟨1, [[-1, 1]], [], false, false⟩ : BasicSet)],
      ∃ x, satisfies m x := by
    intro m hm
    simp only [List.mem_singleton] at hm
    subst hm
    exact ⟨fun _ => 1, (hsat _).mpr rfl⟩
  exact ⟨⟨by decide, HO, hnonempty⟩,
    C7_add_bound_earlier (fun _ c' => .ok (c'.headD 0 + c'.tail.headD 0))
      [⟨1, [[-1, 1]], [], false, false⟩] [-2, 1] (by decide) HO hnonempty⟩

/-! ### C4: uset_is_bound (lines 115–157)

The loop threads the candidate row `c` through the members: flagged-empty
members are skipped; an unbounded LP ends the loop with verdict 0; an empty LP
marks the member and continues; an optimum `n/d` first rescales the whole row
by `d` when `d ≠ 1` and then, on the first optimum seen or on a negative one,
subtracts the (scaled) optimum `n` from the constant term.  The LP collaborator
is consulted on the *current* row, so it is an oracle function. -/

/-- The row update of one `lp_ok` step of `uset_is_bound` (lines 144–148):
scale by the denominator when it is not one, then subtract the numerator from
the constant when this is the first optimum or the optimum is negative. -/
def uset_step (cur : List ℤ) (first : Bool) (n d : ℤ) : List ℤ :=
  let c1 := if d = 1 then cur else isl_seq_scale cur d
  if first || decide (n < 0) then sub_const c1 n else c1

/-- The member loop of `uset_is_bound` (lines 126–149): `first` is the C flag,
the result is `some (verdict, final row)`, or `none` on an LP error. -/
def uset_is_bound_go (O : BasicSet → List ℤ → LPResult) :
    List ℤ → Bool → List BasicSet → Option (Bool × List ℤ)
  | cur, _, [] => some (true, cur)
  | cur, first, m :: ms =>
    if m.emptyFlag then uset_is_bound_go O cur first ms
    else
      match O m cur with
      | .unbounded => some (false, cur)
      | .err => none
      | .empty => uset_is_bound_go O cur first ms
      | .ok n d => uset_is_bound_go O (uset_step cur first n d) false ms

/-- `uset_is_bound` (lines 115–157): run the loop with `first = 1`; the
verdict is `j >= set->n`, i.e. true exactly when no member broke out with an
unbounded LP. -/
def uset_is_bound (O : BasicSet → List ℤ → LPResult) (S : List BasicSet)
    (c : List ℤ) : Option (Bool × List ℤ) :=
  uset_is_bound_go O c true S

theorem go_nil (O : BasicSet → List ℤ → LPResult) (cur : List ℤ) (first : Bool) :
    uset_is_bound_go O cur first [] = some (true, cur) := rfl

theorem go_flagged (O : BasicSet → List ℤ → LPResult) (cur : List ℤ)
    (first : Bool) (m : BasicSet) (ms : List BasicSet) (h : m.emptyFlag = true) :
    uset_is_bound_go O cur first (m :: ms) = uset_is_bound_go O cur first ms := by
  simp [uset_is_bound_go, h]

theorem go_unbounded_case (O : BasicSet → List ℤ → LPResult) (cur : List ℤ)
    (first : Bool) (m : BasicSet) (ms : List BasicSet) (h : m.emptyFlag = false)
    (hr : O m cur = .unbounded) :
    uset_is_bound_go O cur first (m :: ms) = some (false, cur) := by
  simp [uset_is_bound_go, h, hr]

theorem go_err_case (O : BasicSet → List ℤ → LPResult) (cur : List ℤ)
    (first : Bool) (m : BasicSet) (ms : List BasicSet) (h : m.emptyFlag = false)
    (hr : O m cur = .err) :
    uset_is_bound_go O cur first (m :: ms) = none := by
  simp [uset_is_bound_go, h, hr]

theorem go_empty_case (O : BasicSet → List ℤ → LPResult) (cur : List ℤ)
    (first : Bool) (m : BasicSet) (ms : List BasicSet) (h : m.emptyFlag = false)
    (hr : O m cur = .empty) :
    uset_is_bound_go O cur first (m :: ms) = uset_is_bound_go O cur first ms := by
  simp [uset_is_bound_go, h, hr]

theorem go_ok_case (O : BasicSet → List ℤ → LPResult) (cur : List ℤ)
    (first : Bool) (m : BasicSet) (ms : List BasicSet) (h : m.emptyFlag = false)
    (n d : ℤ) (hr : O m cur = .ok n d) :
    uset_is_bound_go O cur first (m :: ms) =
      uset_is_bound_go O (uset_step cur first n d) false ms := by
  simp [uset_is_bound_go, h, hr]

theorem map_mul_mul (l : List ℤ) (d k : ℤ) :
    (l.map (fun a => k * a)).map (fun a => d * a) = l.map (fun a => d * k * a) := by
  induction l with
  | nil => rfl
  | cons a t ih => simp [ih, mul_assoc]

theorem uset_step_tailmul (cur c0 : List ℤ) (first : Bool) (n d k : ℤ)
    (h : cur.tail = c0.tail.map (fun a => k * a)) :
    (uset_step cur first n d).tail = c0.tail.map (fun a => d * k * a) := by
  have htail : (uset_step cur first n d).tail =
      (if d = 1 then cur else isl_seq_scale cur d).tail := by
    simp only [uset_step]
    split
    · rw [sub_const_tail]
    · rfl
  rw [htail]
  by_cases hd : d = 1
  · subst hd
    rw [if_pos rfl, h]
    simp
  · rw [if_neg hd, scale_tail, h, map_mul_mul]

theorem uset_step_ne_nil (cur : List ℤ) (first : Bool) (n d : ℤ)
    (hne : cur ≠ []) : uset_step cur first n d ≠ [] := by
  have h1 : (if d = 1 then cur else isl_seq_scale cur d) ≠ [] := by
    by_cases hd : d = 1
    · rwa [if_pos hd]
    · rw [if_neg hd]; exact scale_ne_nil cur d hne
  simp only [uset_step]
  split
  · exact sub_const_ne_nil _ n h1
  · exact h1

theorem uset_step_eval (cur : List ℤ) (first : Bool) (n d : ℤ) (hne : cur ≠ [])
    (x : ℕ → ℚ) :
    affEval (uset_step cur first n d) x =
      (d : ℚ) * affEval cur x -
        (if (first || decide (n < 0)) = true then (n : ℚ) else 0) := by
  have h1 : (if d = 1 then cur else isl_seq_scale cur d) ≠ [] := by
    by_cases hd : d = 1
    · rwa [if_pos hd]
    · rw [if_neg hd]; exact scale_ne_nil cur d hne
  have hmid : affEval (if d = 1 then cur else isl_seq_scale cur d) x =
      (d : ℚ) * affEval cur x := by
    by_cases hd : d = 1
    · subst hd; rw [if_pos rfl]; push_cast; ring
    · rw [if_neg hd, affEval_scale]
  simp only [uset_step]
  by_cases hf : (first || decide (n < 0)) = true
  · rw [if_pos hf, if_pos hf, affEval_sub_const _ _ _ h1, hmid]
  · rw [if_neg hf, if_neg hf, hmid]
    ring

theorem linUnb_iff_tailmul (m : BasicSet) (c0 cur : List ℤ) (k : ℤ) (hk : 0 < k)
    (h : cur.tail = c0.tail.map (fun a => k * a)) :
    LinUnbBelow m cur ↔ LinUnbBelow m c0 := by
  have hkq : (0 : ℚ) < (k : ℚ) := by exact_mod_cast hk
  have he : ∀ x, affEval cur x = (cur.headD 0 : ℚ) + k * evalFrom c0.tail x 0 := by
    intro x
    simp only [affEval, h, evalFrom_map_mul]
  have he0 : ∀ x, affEval c0 x = (c0.headD 0 : ℚ) + evalFrom c0.tail x 0 :=
    fun _ => rfl
  constructor
  · intro hu M
    obtain ⟨x, hx, hlt⟩ :=
      hu ((cur.headD 0 : ℚ) + k * (M - (c0.headD 0 : ℚ)))
    refine ⟨x, hx, ?_⟩
    rw [he] at hlt
    have h2 : (k : ℚ) * evalFrom c0.tail x 0 < k * (M - (c0.headD 0 : ℚ)) := by
      linarith
    have h3 := (mul_lt_mul_left hkq).mp h2
    rw [he0]
    linarith
  · intro hu M
    obtain ⟨x, hx, hlt⟩ :=
      hu ((c0.headD 0 : ℚ) + (M - (cur.headD 0 : ℚ)) / k)
    refine ⟨x, hx, ?_⟩
    rw [he0] at hlt
    have hL : evalFrom c0.tail x 0 < (M - (cur.headD 0 : ℚ)) / k := by linarith
    have h2 := (lt_div_iff₀ hkq).mp hL
    have hcomm : (k : ℚ) * evalFrom c0.tail x 0 = evalFrom c0.tail x 0 * k :=
      mul_comm _ _
    rw [he]
    linarith

/-- The bundle of conclusions carried through the `uset_is_bound` loop
induction: the verdict characterisation, and for a successful run the
supporting-hyperplane property, the evolution of the row (for `first = false`
calls) and the tightness (for `first = true` calls). -/
def GoSpec (O : BasicSet → List ℤ → LPResult) (c0 : List ℤ) (S : List BasicSet)
    (cur : List ℤ) (first : Bool) : Prop :=
  ((∃ c', uset_is_bound_go O cur first S = some (true, c')) ↔
      ∀ m ∈ S, ¬ LinUnbBelow m c0) ∧
  (∀ c', uset_is_bound_go O cur first S = some (true, c') →
    (∀ m ∈ S, ∀ x, satisfies m x → 0 ≤ affEval c' x) ∧
    (first = false →
      ∃ k2 δ : ℚ, 0 < k2 ∧ 0 ≤ δ ∧
        (∀ x, affEval c' x = k2 * affEval cur x + δ) ∧
        (δ = 0 ∨ ∃ m ∈ S, ∃ x, satisfies m x ∧ affEval c' x = 0)) ∧
    (first = true → (∃ m ∈ S, ∃ x, satisfies m x) →
      ∃ m ∈ S, ∃ x, satisfies m x ∧ affEval c' x = 0))

/-- Skipped members (flagged empty, or reported empty by the LP) do not
disturb the loop invariant, provided they really have no rational point. -/
theorem go_skip_lift (O : BasicSet → List ℤ → LPResult) (c0 : List ℤ)
    (m : BasicSet) (ms : List BasicSet) (cur : List ℤ) (first : Bool)
    (hemp : IsEmptyBS m)
    (hgo : uset_is_bound_go O cur first (m :: ms) = uset_is_bound_go O cur first ms)
    (hms : GoSpec O c0 ms cur first) :
    GoSpec O c0 (m :: ms) cur first := by
  refine ⟨?_, ?_⟩
  · rw [hgo, hms.1]
    constructor
    · intro hall m' hm'
      rcases List.mem_cons.mp hm' with h | h
      · subst h
        intro hu
        obtain ⟨x, hx, -⟩ := hu 0
        exact hemp x hx
      · exact hall m' h
    · intro hall m' hm'
      exact hall m' (by simp [hm'])
  · intro c' hc'
    rw [hgo] at hc'
    obtain ⟨hs, hev, htight⟩ := hms.2 c' hc'
    refine ⟨?_, ?_, ?_⟩
    · intro m' hm' x hx
      rcases List.mem_cons.mp hm' with h | h
      · exact absurd hx (h ▸ hemp x)
      · exact hs m' h x hx
    · intro hff
      obtain ⟨k2, δ, h1, h2, h3, h4⟩ := hev hff
      refine ⟨k2, δ, h1, h2, h3, ?_⟩
      rcases h4 with h4 | ⟨m', hm', x2, hx2, hv2⟩
      · exact Or.inl h4
      · exact Or.inr ⟨m', by simp [hm'], x2, hx2, hv2⟩
    · intro hft hnonempty
      obtain ⟨m', hm', x, hx⟩ := hnonempty
      have hm'' : m' ∈ ms := by
        rcases List.mem_cons.mp hm' with h | h
        · exact absurd hx (h ▸ hemp x)
        · exact h
      obtain ⟨m2, hm2, x2, hx2, hv2⟩ := htight hft ⟨m', hm'', x, hx⟩
      exact ⟨m2, by simp [hm2], x2, hx2, hv2⟩

/-- The main induction for C4, generalised over the running row, the `first`
flag and the accumulated positive scaling of the linear part. -/
theorem uset_go_spec (O : BasicSet → List ℤ → LPResult) (c0 : List ℤ) :
    ∀ (S : List BasicSet) (cur : List ℤ) (first : Bool) (k : ℤ),
    (∀ m ∈ S, ∀ c', c' ≠ [] →
        (∃ k', 0 < k' ∧ c'.tail = c0.tail.map (fun a => k' * a)) →
        LPFaithful m c' (O m c')) →
    (∀ m ∈ S, m.emptyFlag = true → IsEmptyBS m) →
    0 < k → cur.tail = c0.tail.map (fun a => k * a) → cur ≠ [] →
    GoSpec O c0 S cur first := by
  intro S
  induction S with
  | nil =>
    intro cur first k HO hflag hk htm hne
    refine ⟨by simp [go_nil], ?_⟩
    intro c' hc'
    rw [go_nil] at hc'
    simp only [Option.some.injEq, Prod.mk.injEq, true_and] at hc'
    subst hc'
    refine ⟨by simp, ?_, ?_⟩
    · intro _
      exact ⟨1, 0, one_pos, le_refl 0, fun x => by ring, Or.inl rfl⟩
    · intro _ h
      simp at h
  | cons m ms ih =>
    intro cur first k HO hflag hk htm hne
    by_cases hfl : m.emptyFlag = true
    · exact go_skip_lift O c0 m ms cur first (hflag m (by simp) hfl)
        (go_flagged O cur first m ms hfl)
        (ih cur first k (fun m' h' => HO m' (by simp [h']))
          (fun m' h' => hflag m' (by simp [h'])) hk htm hne)
    · rw [Bool.not_eq_true] at hfl
      have hfaith := HO m (by simp) cur hne ⟨k, hk, htm⟩
      cases hr : O m cur with
      | err =>
        rw [hr] at hfaith
        exact absurd hfaith (by simp [LPFaithful])
      | empty =>
        rw [hr] at hfaith
        exact go_skip_lift O c0 m ms cur first hfaith
          (go_empty_case O cur first m ms hfl hr)
          (ih cur first k (fun m' h' => HO m' (by simp [h']))
            (fun m' h' => hflag m' (by simp [h'])) hk htm hne)
      | unbounded =>
        rw [hr] at hfaith
        have hLin : LinUnbBelow m c0 := (linUnb_iff_tailmul m c0 cur k hk htm).mp hfaith
        have hgo := go_unbounded_case O cur first m ms hfl hr
        refine ⟨?_, ?_⟩
        · rw [hgo]
          constructor
          · rintro ⟨c', hc'⟩
            simp at hc'
          · intro hall
            exact absurd hLin (hall m (by simp))
        · intro c' hc'
          rw [hgo] at hc'
          simp at hc'
      | ok n d =>
        rw [hr] at hfaith
        obtain ⟨hd, hmin, xm, hxm, hval⟩ := hfaith
        have hdq : (0 : ℚ) < (d : ℚ) := by exact_mod_cast hd
        have hgo := go_ok_case O cur first m ms hfl n d hr
        have htm2 : (uset_step cur first n d).tail =
            c0.tail.map (fun a => d * k * a) :=
          uset_step_tailmul cur c0 first n d k htm
        have hne2 : uset_step cur first n d ≠ [] := uset_step_ne_nil cur first n d hne
        have hdk : 0 < d * k := mul_pos hd hk
        have ihs := ih (uset_step cur first n d) false (d * k)
          (fun m' h' => HO m' (by simp [h']))
          (fun m' h' => hflag m' (by simp [h'])) hdk htm2 hne2
        have hnb : ¬ LinUnbBelow m c0 := by
          intro hu
          have hu' := (linUnb_iff_tailmul m c0 cur k hk htm).mpr hu
          obtain ⟨x, hx, hlt⟩ := hu' ((n : ℚ) / (d : ℚ))
          exact absurd (hmin x hx) (not_le.mpr hlt)
        have hstep : ∀ x, affEval (uset_step cur first n d) x =
            (d : ℚ) * affEval cur x -
              (if (first || decide (n < 0)) = true then (n : ℚ) else 0) :=
          fun x => uset_step_eval cur first n d hne x
        have hnewmin : ∀ x, satisfies m x → 0 ≤ affEval (uset_step cur first n d) x := by
          intro x hx
          rw [hstep x]
          have h1 := hmin x hx
          have h2 : (n : ℚ) ≤ (d : ℚ) * affEval cur x := by
            have h3 : (d : ℚ) * ((n : ℚ) / (d : ℚ)) ≤ (d : ℚ) * affEval cur x :=
              mul_le_mul_of_nonneg_left h1 (le_of_lt hdq)
            rwa [mul_div_cancel₀ _ (ne_of_gt hdq)] at h3
          by_cases hcase : (first || decide (n < 0)) = true
          · rw [if_pos hcase]
            linarith
          · rw [if_neg hcase]
            have hn0 : ¬ n < 0 := by
              intro hn
              simp [hn] at hcase
            have hn0' : (0 : ℚ) ≤ (n : ℚ) := by exact_mod_cast not_lt.mp hn0
            linarith
        have hattain : (first || decide (n < 0)) = true →
            affEval (uset_step cur first n d) xm = 0 := by
          intro hcase
          rw [hstep xm, if_pos hcase, hval, mul_div_cancel₀ _ (ne_of_gt hdq)]
          ring
        refine ⟨?_, ?_⟩
        · rw [hgo, ihs.1]
          constructor
          · intro hall m' hm'
            rcases List.mem_cons.mp hm' with h | h
            · exact h ▸ hnb
            · exact hall m' h
          · intro hall m' hm'
            exact hall m' (by simp [hm'])
        · intro c' hc'
          rw [hgo] at hc'
          obtain ⟨hs, hev, -⟩ := ihs.2 c' hc'
          obtain ⟨k2, δ, hk2', hδ, hevol, hdis⟩ := hev rfl
          refine ⟨?_, ?_, ?_⟩
          · intro m' hm' x hx
            rcases List.mem_cons.mp hm' with h | h
            · subst h
              rw [hevol x]
              have h4 := mul_nonneg (le_of_lt hk2') (hnewmin x hx)
              linarith
            · exact hs m' h x hx
          · intro hff
            refine ⟨k2 * d,
              δ + (if (first || decide (n < 0)) = true then k2 * (-(n : ℚ)) else 0),
              mul_pos hk2' hdq, ?_, ?_, ?_⟩
            · by_cases hcase : (first || decide (n < 0)) = true
              · rw [if_pos hcase]
                have hneg : n < 0 := by
                  rw [hff] at hcase
                  simpa using hcase
                have hnegq : (0 : ℚ) < -(n : ℚ) := by
                  have : (n : ℚ) < 0 := by exact_mod_cast hneg
                  linarith
                have := mul_pos hk2' hnegq
                linarith
              · rw [if_neg hcase]
                linarith
            · intro x
              rw [hevol x, hstep x]
              by_cases hcase : (first || decide (n < 0)) = true
              · rw [if_pos hcase, if_pos hcase]
                ring
              · rw [if_neg hcase, if_neg hcase]
                ring
            · by_cases hcase : (first || decide (n < 0)) = true
              · right
                have h0 : affEval c' xm = δ := by
                  rw [hevol xm, hattain hcase]
                  ring
                rcases hdis with hδ0 | ⟨m', hm', x2, hx2, hv2⟩
                · exact ⟨m, by simp, xm, hxm, by rw [h0, hδ0]⟩
                · exact ⟨m', by simp [hm'], x2, hx2, hv2⟩
              · rw [if_neg hcase]
                rcases hdis with hδ0 | ⟨m', hm', x2, hx2, hv2⟩
                · left
                  rw [hδ0]
                  ring
                · exact Or.inr ⟨m', by simp [hm'], x2, hx2, hv2⟩
          · intro hft _
            have hcase : (first || decide (n < 0)) = true := by
              rw [hft]
              simp
            have h0 : affEval c' xm = δ := by
              rw [hevol xm, hattain hcase]
              ring
            rcases hdis with hδ0 | ⟨m', hm', x2, hx2, hv2⟩
            · exact ⟨m, by simp, xm, hxm, by rw [h0, hδ0]⟩
            · exact ⟨m', by simp [hm'], x2, hx2, hv2⟩

/-- C4 (amended): with a faithful LP oracle (consulted on the running,
positively rescaled row) and empty flags implying real emptiness, the bound
search succeeds exactly when no member leaves the candidate form unbounded
below; on success the final (possibly rescaled) row is non-negative on every
member and — provided at least one member is non-empty — attains the value 0
on some member.  (The all-empty case succeeds without any tight member; see
the counterexample.) -/
theorem C4_uset_is_bound (O : BasicSet → List ℤ → LPResult) (S : List BasicSet)
    (c : List ℤ) (hne : c ≠ [])
    (HO : ∀ m ∈ S, ∀ c', c' ≠ [] →
        (∃ k', 0 < k' ∧ c'.tail = c.tail.map (fun a => k' * a)) →
        LPFaithful m c' (O m c'))
    (hflag : ∀ m ∈ S, m.emptyFlag = true → IsEmptyBS m) :
    ((∃ c', uset_is_bound O S c = some (true, c')) ↔ ∀ m ∈ S, ¬ LinUnbBelow m c) ∧
    (∀ c', uset_is_bound O S c = some (true, c') →
      (∀ m ∈ S, ∀ x, satisfies m x → 0 ≤ affEval c' x) ∧
      ((∃ m ∈ S, ∃ x, satisfies m x) →
        ∃ m ∈ S, ∃ x, satisfies m x ∧ affEval c' x = 0)) := by
  have h := uset_go_spec O c S c true 1 HO hflag one_pos (by simp) hne
  exact ⟨h.1, fun c' hc' => ⟨(h.2 c' hc').1, (h.2 c' hc').2.2 rfl⟩⟩

/-- C4 counterexample: on a union whose only member is empty (the constraint
`1 = 0`, empty flag not yet set) with a faithful LP answering `empty`, the
search succeeds — `j >= set->n` holds after the loop — with the row unchanged,
but the bound is tight on no member: the claim's "attains value 0 on at least
one member" fails. -/
theorem C4_counterexample :
    uset_is_bound (fun _ _ => .empty) [⟨1, [[1]], [], false, false⟩] [5, 1] =
      some (true, [5, 1]) ∧
    (∀ m ∈ [(⟨1, [[1]], [], false, false⟩ : BasicSet)], ∀ c' : List ℤ,
      LPFaithful m c' ((fun (_ : BasicSet) (_ : List ℤ) => LPResult.empty) m c')) ∧
    ¬ ∃ m ∈ [(⟨1, [[1]], [], false, false⟩ : BasicSet)], ∃ x, satisfies m x ∧
        affEval [5, 1] x = 0 := by
  have hemp : IsEmptyBS ⟨1, [[1]], [], false, false⟩ := by
    intro x hx
    have h1 := hx.1 [1] (by simp)
    simp [affEval, evalFrom] at h1
  refine ⟨rfl, ?_, ?_⟩
  · intro m hm c'
    simp only [List.mem_singleton] at hm
    subst hm
    exact hemp
  · rintro ⟨m, hm, x, hx, -⟩
    simp only [List.mem_singleton] at hm
    subst hm
    exact hemp x hx

theorem C4_uset_is_bound_witness :
    (([7, 1] : List ℤ) ≠ [] ∧
      (∀ m ∈ [(⟨1, [[0, 1]], [], false, false⟩ : BasicSet)], ∀ c' : List ℤ, c' ≠ [] →
        (∃ k', 0 < k' ∧ c'.tail = ([7, 1] : List ℤ).tail.map (fun a => k' * a)) →
        LPFaithful m c'
          ((fun (_ : BasicSet) (c' : List ℤ) => LPResult.ok (c'.headD 0) 1) m c')) ∧
      (∀ m ∈ [(⟨1, [[0, 1]], [], false, false⟩ : BasicSet)],
        m.emptyFlag = true → IsEmptyBS m)) ∧
    (((∃ c', uset_is_bound (fun _ c' => .ok (c'.headD 0) 1)
          [⟨1, [[0, 1]], [], false, false⟩] [7, 1] = some (true, c')) ↔
        ∀ m ∈ [(⟨1, [[0, 1]], [], false, false⟩ : BasicSet)], ¬ LinUnbBelow m [7, 1]) ∧
     (∀ c', uset_is_bound (fun _ c' => .ok (c'.headD 0) 1)
          [⟨1, [[0, 1]], [], false, false⟩] [7, 1] = some (true, c') →
        (∀ m ∈ [(⟨1, [[0, 1]], [], false, false⟩ : BasicSet)], ∀ x,
          satisfies m x → 0 ≤ affEval c' x) ∧
        ((∃ m ∈ [(⟨1, [[0, 1]], [], false, false⟩ : BasicSet)], ∃ x, satisfies m x) →
          ∃ m ∈ [(⟨1, [[0, 1]], [], false, false⟩ : BasicSet)], ∃ x,
            satisfies m x ∧ affEval c' x = 0))) := by
  have hsat : ∀ x : ℕ → ℚ,
      satisfies ⟨1, [[0, 1]], [], false, false⟩ x ↔ x 0 = 0 := by
    intro x
    simp [satisfies, affEval, evalFrom]
  have HO : ∀ m ∈ [(⟨1, [[0, 1]], [], false, false⟩ : BasicSet)], ∀ c' : List ℤ,
      c' ≠ [] →
      (∃ k', 0 < k' ∧ c'.tail = ([7, 1] : List ℤ).tail.map (fun a => k' * a)) →
      LPFaithful m c'
        ((fun (_ : BasicSet) (c' : List ℤ) => LPResult.ok (c'.headD 0) 1) m c') := by
    intro m hm c' hne' hk'
    simp only [List.mem_singleton] at hm
    subst hm
    obtain ⟨k', hk'pos, htl⟩ := hk'
    have hc' : c' = [c'.headD 0, k'] := by
      cases c' with
      | nil => exact absurd rfl hne'
      | cons a t =>
        simp only [List.tail_cons] at htl
        simp [htl]
    refine ⟨one_pos, ?_, fun _ => 0, ?_, ?_⟩
    · intro x hx
      rw [hsat] at hx
      rw [hc']
      simp [affEval, evalFrom, hx]
    · rw [hsat]
    · rw [hc']
      simp [affEval, evalFrom]
  have hflag : ∀ m ∈ [(⟨1, [[0, 1]], [], false, false⟩ : BasicSet)],
      m.emptyFlag = true → IsEmptyBS m := by
    intro m hm h
    simp only [List.mem_singleton] at hm
    subst hm
    simp at h
  exact ⟨⟨by decide, HO, hflag⟩,
    C4_uset_is_bound (fun _ c' => .ok (c'.headD 0) 1)
      [⟨1, [[0, 1]], [], false, false⟩] [7, 1] (by decide) HO hflag⟩

end IslHull
